import Mathlib

/-!
Verification of the verb-conjugation subsystem of the `tr` translator
(package `internal/translator`, file `translator.go`).

Go strings are modelled as lists of Unicode code points (`List Char`);
Go's `len` on a string counts UTF-8 bytes, which is modelled by `goLen`
(the sum of the UTF-8 sizes of the code points).  Go maps
(`map[string]string`, `map[string]map[string]string`, …) are modelled as
association lists without a fixed iteration order; `lookupA` is map
indexing and `insertA` is map assignment (replace the binding if the key
is present, otherwise add it).
-/

set_option autoImplicit false

namespace Tr

/-- A Go string: the sequence of Unicode code points of a UTF-8 string. -/
abbrev GoStr := List Char

/-- Go `len(s)` for a string: the number of UTF-8 bytes. -/
def goLen (s : GoStr) : Nat := (s.map Char.utf8Size).sum

/-- Go `strings.ToLower`, restricted to the characters that matter for this
program: ASCII letters and the Spanish accented letters á é í ó ú ü ñ.
Every other character is returned unchanged (other uppercase letters are
rejected by the validator's character-set check in either case). -/
def goToLowerChar (c : Char) : Char :=
  if 'A' ≤ c ∧ c ≤ 'Z' then Char.ofNat (c.toNat + 32)
  else if c = 'Á' then 'á'
  else if c = 'É' then 'é'
  else if c = 'Í' then 'í'
  else if c = 'Ó' then 'ó'
  else if c = 'Ú' then 'ú'
  else if c = 'Ü' then 'ü'
  else if c = 'Ñ' then 'ñ'
  else c

/-- Go `strings.ToLower` on a whole string. -/
def goToLower (s : GoStr) : GoStr := s.map goToLowerChar

/-- Whitespace as trimmed by Go `strings.TrimSpace` (ASCII part). -/
def goIsSpace (c : Char) : Bool :=
  c == ' ' || c == '\t' || c == '\n' || c == '\r' || c.toNat == 11 || c.toNat == 12

/-- Go `strings.TrimSpace`. -/
def goTrimSpace (s : GoStr) : GoStr :=
  ((s.dropWhile goIsSpace).reverse.dropWhile goIsSpace).reverse

/-- Go `strings.Contains s sub`: some suffix of `s` starts with `sub`. -/
def containsG (s sub : GoStr) : Bool :=
  match s with
  | [] => sub.isEmpty
  | c :: rest => sub.isPrefixOf (c :: rest) || containsG rest sub

/-- Go `strings.HasSuffix s suf`. -/
def goHasSuffix (s suf : GoStr) : Bool := suf.isSuffixOf s

/-- Map indexing `m[k]` for a Go map modelled as an association list:
the value at the first binding of `k`, if any. -/
def lookupA {β : Type} (m : List (GoStr × β)) (k : GoStr) : Option β :=
  match m with
  | [] => none
  | (k', v) :: rest => if k' = k then some v else lookupA rest k

/-- Map assignment `m[k] = v` for a Go map modelled as an association list:
replace the binding of `k` if present, otherwise add one. -/
def insertA {β : Type} (k : GoStr) (v : β) (m : List (GoStr × β)) : List (GoStr × β) :=
  match m with
  | [] => [(k, v)]
  | (k', v') :: rest => if k' = k then (k, v) :: rest else (k', v') :: insertA k v rest

/-- A person map: Go `map[string]string` from person identifier to form. -/
abbrev PMap := List (GoStr × GoStr)

/-- A conjugation table: Go `map[string]map[string]string` from tense to person map. -/
abbrev TMap := List (GoStr × PMap)

/-- The in-memory conjugation cache: Go `map[string]map[string]map[string]string`. -/
abbrev Cache := List (GoStr × TMap)

/-- Lookup of a single (tense, person) cell of a conjugation table. -/
def lookup2 (m : TMap) (t p : GoStr) : Option GoStr :=
  match lookupA m t with
  | none => none
  | some pm => lookupA pm p

/-- Go function `isLikelySpanishVerb` (translator.go:169): lowercase the word and
test for the infinitive endings ar / er / ir. -/
def isLikelySpanishVerb (word : GoStr) : Bool :=
  let w := goToLower word
  goHasSuffix w "ar".data || goHasSuffix w "er".data || goHasSuffix w "ir".data

/-- Go function `getVerbStem` (translator.go:177): `verb[:len(verb)-2]` unless the
byte length is below 3.  Go slices bytes; dropping the last two characters
agrees with dropping the last two bytes whenever those characters are
single-byte, which holds for every verb ending in ar / er / ir (the only
inputs whose stem is used to build conjugations). -/
def getVerbStem (verb : GoStr) : GoStr :=
  if goLen verb < 3 then verb else verb.dropLast.dropLast

/-- The person identifiers, in the order the Go source writes them. -/
def pYo : GoStr := "yo".data
def pTu : GoStr := "tú".data
def pEl : GoStr := "él/ella".data
def pNos : GoStr := "nosotros".data
def pVos : GoStr := "vosotros".data
def pEllos : GoStr := "ellos".data

/-- One six-person tense map built by appending a suffix per person to a base,
exactly the shape of each tense block in `generateRuleBasedConjugations`. -/
def mkSix (base s1 s2 s3 s4 s5 s6 : GoStr) : PMap :=
  [(pYo, base ++ s1), (pTu, base ++ s2), (pEl, base ++ s3),
   (pNos, base ++ s4), (pVos, base ++ s5), (pEllos, base ++ s6)]

/-- Go function `generateRuleBasedConjugations` (translator.go:751): rule-based
conjugations for regular verbs.  `ending` is `verb[len(stem):]`. -/
def generateRuleBasedConjugations (verb : GoStr) : TMap :=
  if ¬(goHasSuffix verb "ar".data = true ∨ goHasSuffix verb "er".data = true ∨
        goHasSuffix verb "ir".data = true) then []
  else
    let stem := getVerbStem verb
    let ending := verb.drop stem.length
    let present : PMap :=
      if ending = "ar".data then
        mkSix stem "o".data "as".data "a".data "amos".data "áis".data "an".data
      else if ending = "er".data then
        mkSix stem "o".data "es".data "e".data "emos".data "éis".data "en".data
      else if ending = "ir".data then
        mkSix stem "o".data "es".data "e".data "imos".data "ís".data "en".data
      else []
    let preterite : PMap :=
      if ending = "ar".data then
        mkSix stem "é".data "aste".data "ó".data "amos".data "asteis".data "aron".data
      else if ending = "er".data ∨ ending = "ir".data then
        mkSix stem "í".data "iste".data "ió".data "imos".data "isteis".data "ieron".data
      else []
    let future : PMap :=
      mkSix verb "é".data "ás".data "á".data "emos".data "éis".data "án".data
    let conditional : PMap :=
      mkSix verb "ía".data "ías".data "ía".data "íamos".data "íais".data "ían".data
    [("present".data, present), ("preterite".data, preterite),
     ("future".data, future), ("conditional".data, conditional)]

/-- Go function `isValidConjugation` (translator.go:721): length bounds in UTF-8
bytes, noise markers, character-set check on the lowered text, then either the
stem-containment or the 2–10-byte-length tie-breaker. -/
def isValidConjugation (text verb : GoStr) : Bool :=
  if text = [] ∨ goLen text < 2 ∨ 20 < goLen text then false
  else if containsG text "http".data = true ∨ containsG text "@".data = true ∨
            containsG text "#".data = true then false
  else if ¬(goToLower text ≠ [] ∧ ∀ c ∈ goToLower text,
              ('a' ≤ c ∧ c ≤ 'z') ∨ c ∈ (['á', 'é', 'í', 'ó', 'ú', 'ü', 'ñ'] : List Char)) then
    false
  else
    if containsG (goToLower text) (goToLower (getVerbStem verb)) = true ∨
        (2 ≤ goLen text ∧ goLen text ≤ 10) then true
    else false

/-- The body of the inner per-tense merge loop of `GetConjugations`
(translator.go:148-152): fill in person `pr.1` from the rule-based form `pr.2`
only when it is absent, empty or the placeholder in the scraped tense. -/
def mergeStepP (acc : PMap) (pr : GoStr × GoStr) : PMap :=
  match lookupA acc pr.1 with
  | none => insertA pr.1 pr.2 acc
  | some v => if v = [] ∨ v = "-".data then insertA pr.1 pr.2 acc else acc

/-- The inner per-tense merge loop of `GetConjugations` (translator.go:148-152). -/
def mergeTense (html rule : PMap) : PMap :=
  rule.foldl mergeStepP html

/-- The body of the merge loop of `GetConjugations` (translator.go:145-157):
merge rule-based tense `tr` into the scraped table when the tense is present,
otherwise add the whole rule-based tense. -/
def mergeStepT (acc : TMap) (tr : GoStr × PMap) : TMap :=
  match lookupA acc tr.1 with
  | some h => insertA tr.1 (mergeTense h tr.2) acc
  | none => insertA tr.1 tr.2 acc

/-- The merge loop of `GetConjugations` (translator.go:145-157). -/
def mergeConj (conj rule : TMap) : TMap :=
  rule.foldl mergeStepT conj

/-- The verb normalization at the top of `GetConjugations` (translator.go:125). -/
def normVerb (verb : GoStr) : GoStr := goToLower (goTrimSpace verb)

/-- Go method `GetConjugations` (translator.go:124-166).  The remote
fetch-and-parse is a side effect and is passed in as `scrape`
(`Except.error ()` when `getConjugationsFromSpanishDict` returned an error,
`Except.ok c` when it returned table `c`); the cache the method consults is
passed in as `cache`.  The caching write-back does not change the returned
value and is modelled separately by the cache-store operations. -/
def GetConjugations (cache : Cache) (scrape : Except Unit TMap) (verb : GoStr) :
    Except Unit TMap :=
  let v := normVerb verb
  match lookupA cache v with
  | some cached => Except.ok cached
  | none =>
    let ruleBased := generateRuleBasedConjugations v
    let conjugations :=
      match scrape with
      | Except.error _ => ruleBased
      | Except.ok c => if c = [] then ruleBased else mergeConj c ruleBased
    Except.ok conjugations

/-- The value of one merged cell as a function of the two source cells. -/
def mergeCell (hv rv : Option GoStr) : Option GoStr :=
  match rv with
  | none => hv
  | some rc =>
    match hv with
    | none => some rc
    | some v => if v = [] ∨ v = "-".data then some rc else some v

/-- The tense-level merged entry as a function of the two source entries. -/
def mergeTop (ev gv : Option PMap) : Option PMap :=
  match gv with
  | none => ev
  | some gt =>
    match ev with
    | none => some gt
    | some et => some (mergeTense et gt)

/-- A Go-map-shaped table: no duplicated tense keys and no duplicated person
keys inside any tense.  Every table that denotes a Go map satisfies this. -/
def WFTMap (g : TMap) : Prop :=
  (g.map Prod.fst).Nodup ∧ ∀ pr ∈ g, ((pr.2.map Prod.fst).Nodup)

instance (g : TMap) : Decidable (WFTMap g) := by
  unfold WFTMap
  infer_instance

/-! Model of the parsed HTML documents consumed by the extractors.  goquery
selections are modelled at the level of the parsed tree: a cell carries the
text `.Text()` returns for it, a row is its cells in document order, a table
records whether it carries the SpanishDict class marker `sTe03NLF`. -/

/-- One cell of a parsed table row: a header (`th`) or data (`td`) cell. -/
structure GCell where
  isTh : Bool
  text : GoStr

/-- One `tr` row: its cells in document order. -/
structure GRow where
  cells : List GCell

/-- A parsed `table` element. -/
structure GTable where
  hasSDClass : Bool
  rows : List GRow

/-- A parsed document: its `table` elements in document order. -/
structure GDoc where
  tables : List GTable

/-- goquery `row.Text()`: the concatenated text of all cells of the row. -/
def rowText (r : GRow) : GoStr := (r.cells.map GCell.text).foldr (· ++ ·) []

/-- goquery `row.Find("th")`: the texts of the header cells of the row. -/
def rowThs (r : GRow) : List GoStr := (r.cells.filter (·.isTh)).map GCell.text

/-- goquery `row.Find("td")`: the texts of the data cells of the row. -/
def rowTds (r : GRow) : List GoStr := (r.cells.filter (fun c => !c.isTh)).map GCell.text

/-- Remainder after the first `>` character, if any (helper for the regexp
`<[^>]*>`: a match starting at a `<` extends to the next `>`). -/
def findGt : GoStr → Option GoStr
  | [] => none
  | c :: r => if c = '>' then some r else findGt r

/-- The global removal of `<[^>]*>` matches in `cleanConjugation`
(translator.go:480-481): at a `<` with a later `>`, drop through that `>`;
a `<` with no closing `>` starts no match and is kept. -/
def stripTags : GoStr → GoStr
  | [] => []
  | c :: r =>
    if c = '<' then
      match hgt : findGt r with
      | some r' => stripTags r'
      | none => c :: stripTags r
    else c :: stripTags r
termination_by s => s.length
decreasing_by
  · have key : ∀ s r' : GoStr, findGt s = some r' → r'.length < s.length := by
      intro s
      induction s with
      | nil => intro r' h; simp [findGt] at h
      | cons c s' ih =>
        intro r' h
        unfold findGt at h
        by_cases hc : c = '>'
        · rw [if_pos hc] at h
          injection h with h
          subst h
          simp
        · rw [if_neg hc] at h
          have := ih r' h
          simp
          omega
    simpa using Nat.lt_succ_of_lt (key _ _ hgt)
  · simp
  · simp

/-- Go `strings.ReplaceAll s old rep` for the non-empty entity patterns used by
`cleanConjugation` (an empty pattern never occurs there). -/
def replaceAll (pat rep : GoStr) : GoStr → GoStr
  | [] => []
  | c :: rest =>
    if h : pat ≠ [] ∧ pat.isPrefixOf (c :: rest) = true then
      rep ++ replaceAll pat rep ((c :: rest).drop pat.length)
    else c :: replaceAll pat rep rest
termination_by s => s.length
decreasing_by
  · have hp : 0 < pat.length := List.length_pos.2 h.1
    simp [List.length_drop]
    omega
  · simp

/-- Go method `cleanConjugation` (translator.go:478-494): strip tags, decode
the five named entities, trim whitespace. -/
def cleanConjugation (text : GoStr) : GoStr :=
  goTrimSpace
    (replaceAll "&#8203;".data []
      (replaceAll "&gt;".data ">".data
        (replaceAll "&lt;".data "<".data
          (replaceAll "&amp;".data "&".data
            (replaceAll "&nbsp;".data " ".data (stripTags text))))))

/-- The Go map write `conjugations[tense][person] = v`, creating the inner map
when absent (translator.go:708-711 and 614-617). -/
def setCell (t p v : GoStr) (m : TMap) : TMap :=
  match lookupA m t with
  | none => insertA t [(p, v)] m
  | some pm => insertA t (insertA p v pm) m

/-- The pronoun-row prefix matching of `extractFromSpanishDictTable`
(translator.go:677-691). -/
def pronounOf (rowT : GoStr) : Option GoStr :=
  if "yo".data.isPrefixOf rowT = true then some pYo
  else if "tú".data.isPrefixOf rowT = true then some pTu
  else if "él/ella/Ud.".data.isPrefixOf rowT = true then some pEl
  else if "nosotros".data.isPrefixOf rowT = true then some pNos
  else if "vosotros".data.isPrefixOf rowT = true then some pVos
  else if "ellos/ellas/Uds.".data.isPrefixOf rowT = true then some pEllos
  else none

/-- Keyword matching of one header cell (translator.go:645-661); `i` is the
header-cell index used for the positional fallback label `tense_i`. -/
def tenseOfHeader (i : Nat) (thText : GoStr) : GoStr :=
  if containsG (goToLower (goTrimSpace thText)) "present".data = true then "present".data
  else if containsG (goToLower (goTrimSpace thText)) "preterite".data = true then
    "preterite".data
  else if containsG (goToLower (goTrimSpace thText)) "imperfect".data = true then
    "imperfect".data
  else if containsG (goToLower (goTrimSpace thText)) "conditional".data = true then
    "conditional".data
  else if containsG (goToLower (goTrimSpace thText)) "future".data = true then "future".data
  else "tense_".data ++ Nat.toDigits 10 i

/-- Tense-column order determination of `extractFromSpanishDictTable`
(translator.go:629-664): the fixed concatenated header signature, else the
per-header keyword scan skipping the first (empty) header. -/
def tenseNamesOf (rows : List GRow) : List GoStr :=
  if containsG (goTrimSpace (match rows.head? with | some r => rowText r | none => []))
      "PresentPreteriteImperfectConditionalFuture".data = true then
    ["present".data, "preterite".data, "imperfect".data, "conditional".data, "future".data]
  else
    match rows.head? with
    | none => []
    | some hr =>
      ((rowThs hr).enum.filter (fun pr => pr.1 ≠ 0)).map (fun pr => tenseOfHeader pr.1 pr.2)

/-- Go method `extractFromSpanishDictTable` (translator.go:626-718) over the
rows of a parsed table. -/
def extractFromSpanishDictTable (rows : List GRow) (verb : GoStr) : TMap :=
  rows.enum.foldl
    (fun conj rpair =>
      if rpair.1 = 0 then conj
      else
        match pronounOf (goTrimSpace (rowText rpair.2)) with
        | none => conj
        | some pronoun =>
          if (rowTds rpair.2).length = (tenseNamesOf rows).length then
            (rowTds rpair.2).enum.foldl
              (fun conj2 cpair =>
                if cpair.1 < (tenseNamesOf rows).length then
                  if cleanConjugation (goTrimSpace cpair.2) ≠ [] ∧
                      cleanConjugation (goTrimSpace cpair.2) ≠ "-".data ∧
                      isValidConjugation (cleanConjugation (goTrimSpace cpair.2)) verb =
                        true then
                    setCell ((tenseNamesOf rows).getD cpair.1 []) pronoun
                      (cleanConjugation (goTrimSpace cpair.2)) conj2
                  else conj2
                else conj2)
              conj
          else conj)
    []

/-- The positional tense switch of the generic extractor
(translator.go:598-612). -/
def tenseOfIdx (i : Nat) : Option GoStr :=
  if i = 0 then some "present".data
  else if i = 1 then some "preterite".data
  else if i = 2 then some "imperfect".data
  else if i = 3 then some "conditional".data
  else if i = 4 then some "future".data
  else none

/-- The header-presence test of the generic extractor (translator.go:574-580):
offset 1 when the first row has a `th` cell or a tense text hint. -/
def headerOffsetOf (rows : List GRow) : Nat :=
  match rows.head? with
  | none => 0
  | some fr =>
    if (rowThs fr).length > 0 ∨
        containsG (goToLower (rowText fr)) "presente".data = true ∨
        containsG (goToLower (rowText fr)) "preterite".data = true then 1
    else 0

/-- The fixed person labels of the generic extractor (translator.go:569). -/
def personsList : List GoStr := [pYo, pTu, pEl, pNos, pVos, pEllos]

/-- Go method `extractConjugationsFromTable` (translator.go:560-623), generic
path: persons assigned by row order after the header offset, tenses assigned
positionally by cell index. -/
def extractConjugationsFromTable (tbl : GTable) (verb : GoStr) : TMap :=
  if tbl.hasSDClass = true then extractFromSpanishDictTable tbl.rows verb
  else
    tbl.rows.enum.foldl
      (fun conj rpair =>
        if rpair.1 < headerOffsetOf tbl.rows ∨
            personsList.length ≤ rpair.1 - headerOffsetOf tbl.rows then conj
        else
          (rowTds rpair.2).enum.foldl
            (fun conj2 cpair =>
              if cleanConjugation (goTrimSpace cpair.2) ≠ [] ∧
                  cleanConjugation (goTrimSpace cpair.2) ≠ "-".data ∧
                  isValidConjugation (cleanConjugation (goTrimSpace cpair.2)) verb =
                    true then
                match tenseOfIdx cpair.1 with
                | some tense =>
                    setCell tense (personsList.getD (rpair.1 - headerOffsetOf tbl.rows) [])
                      (cleanConjugation (goTrimSpace cpair.2)) conj2
                | none => conj2
              else conj2)
            conj)
      []

/-- Go method `parseSpanishDictHTML` (translator.go:523-557) over a parsed
document: the first table with the SpanishDict class marker is tried first and
returned when non-empty; otherwise every table with six or seven rows is tried
and the last non-empty generic extraction wins. -/
def parseSpanishDictHTML (doc : GDoc) (verb : GoStr) : TMap :=
  if (match doc.tables.find? (fun tbl => tbl.hasSDClass) with
      | some tbl => extractFromSpanishDictTable tbl.rows verb
      | none => []) ≠ [] then
    match doc.tables.find? (fun tbl => tbl.hasSDClass) with
    | some tbl => extractFromSpanishDictTable tbl.rows verb
    | none => []
  else
    doc.tables.foldl
      (fun conj tbl =>
        if tbl.rows.length = 6 ∨ tbl.rows.length = 7 then
          if extractConjugationsFromTable tbl verb ≠ [] then
            extractConjugationsFromTable tbl verb
          else conj
        else conj)
      []

/-! The stored-values invariant: no `""` and no `"-"` ever stored in a table. -/

/-- Every form bound in the person map is non-empty and not the placeholder. -/
def PMapGood (pm : PMap) : Prop := ∀ qr ∈ pm, qr.2 ≠ [] ∧ qr.2 ≠ "-".data

/-- Every person map bound in the table satisfies `PMapGood`. -/
def TableGood (m : TMap) : Prop := ∀ pr ∈ m, PMapGood pr.2

/-! Model of the cache store (translator.go:416-475).  The durable file's JSON
document is modelled as a tree of JSON values; rendering that tree to bytes and
parsing it back is done by Go's `encoding/json` library, outside this
repository. -/

/-- A JSON value as stored in the cache file: strings and string-keyed objects
suffice for the cache document. -/
inductive JVal where
  | str : GoStr → JVal
  | obj : List (GoStr × JVal) → JVal

/-- JSON encoding of a person map (`json.Marshal` of `map[string]string`). -/
def encodePM (pm : PMap) : JVal := JVal.obj (pm.map fun qr => (qr.1, JVal.str qr.2))

/-- JSON encoding of a conjugation table. -/
def encodeTM (tm : TMap) : JVal := JVal.obj (tm.map fun pr => (pr.1, encodePM pr.2))

/-- JSON encoding of the whole cache map. -/
def encodeCache (c : Cache) : JVal := JVal.obj (c.map fun vr => (vr.1, encodeTM vr.2))

/-- Decoding of a JSON object with a per-value decoder (`json.Unmarshal` into a
string-keyed map, failing when any value has the wrong shape). -/
def decodeObjWith {β : Type} (f : JVal → Option β) :
    List (GoStr × JVal) → Option (List (GoStr × β))
  | [] => some []
  | (k, j) :: rest =>
    match f j, decodeObjWith f rest with
    | some b, some r => some ((k, b) :: r)
    | _, _ => none

/-- Decoding of a JSON string. -/
def decodeStr : JVal → Option GoStr
  | JVal.str s => some s
  | JVal.obj _ => none

/-- Decoding of a person map. -/
def decodePM : JVal → Option PMap
  | JVal.obj l => decodeObjWith decodeStr l
  | JVal.str _ => none

/-- Decoding of a conjugation table. -/
def decodeTM : JVal → Option TMap
  | JVal.obj l => decodeObjWith decodePM l
  | JVal.str _ => none

/-- Decoding of a whole cache map. -/
def decodeCache : JVal → Option Cache
  | JVal.obj l => decodeObjWith decodeTM l
  | JVal.str _ => none

/-- Go method `cacheConjugations` (translator.go:467-475): map assignment under
the write lock; the asynchronous flush is `saveCache`. -/
def cacheConjugations (cache : Cache) (verb : GoStr) (conjugations : TMap) : Cache :=
  insertA verb conjugations cache

/-- Go method `getCachedConjugations` (translator.go:456-464). -/
def getCachedConjugations (cache : Cache) (verb : GoStr) : Option TMap :=
  lookupA cache verb

/-- Go method `saveCache` (translator.go:438-453): serialize the entire cache
map to the durable file. -/
def saveCache (cache : Cache) : JVal := encodeCache cache

/-- Go method `loadCache` (translator.go:417-435) on a fresh store: a missing
or undecodable file silently leaves the cache empty. -/
def loadCache (file : Option JVal) : Cache :=
  match file with
  | none => []
  | some j =>
    match decodeCache j with
    | some c => c
    | none => []

/-! Basic lemmas about the association-list model of Go maps. -/

theorem lookupA_insertA_self {β : Type} (m : List (GoStr × β)) (k : GoStr) (v : β) :
    lookupA (insertA k v m) k = some v := by
  induction m with
  | nil => simp [insertA, lookupA]
  | cons hd tl ih =>
    obtain ⟨k', v'⟩ := hd
    by_cases h : k' = k
    · simp [insertA, h, lookupA]
    · simp [insertA, h, lookupA, ih]

theorem lookupA_insertA_ne {β : Type} (m : List (GoStr × β)) (k k' : GoStr) (v : β)
    (h : k' ≠ k) : lookupA (insertA k v m) k' = lookupA m k' := by
  induction m with
  | nil => simp [insertA, lookupA, Ne.symm h]
  | cons hd tl ih =>
    obtain ⟨k'', v''⟩ := hd
    by_cases hk : k'' = k
    · subst hk
      simp [insertA, lookupA, Ne.symm h]
    · simp only [insertA, if_neg hk, lookupA, ih]

theorem lookupA_mem {β : Type} {m : List (GoStr × β)} {k : GoStr} {v : β}
    (h : lookupA m k = some v) : (k, v) ∈ m := by
  induction m with
  | nil => simp [lookupA] at h
  | cons hd tl ih =>
    obtain ⟨k', v'⟩ := hd
    by_cases hk : k' = k
    · subst hk
      simp [lookupA] at h
      simp [h]
    · simp [lookupA, hk] at h
      exact List.mem_cons_of_mem _ (ih h)

theorem insertA_ne_nil {β : Type} (m : List (GoStr × β)) (k : GoStr) (v : β) :
    insertA k v m ≠ [] := by
  cases m with
  | nil => simp [insertA]
  | cons hd tl =>
    obtain ⟨k', v'⟩ := hd
    by_cases h : k' = k <;> simp [insertA, h]

/-- Invariant preservation along a left fold. -/
theorem foldl_inv {α β : Type} (Inv : β → Prop) (f : β → α → β) (l : List α) (init : β)
    (hstep : ∀ acc x, x ∈ l → Inv acc → Inv (f acc x)) (hinit : Inv init) :
    Inv (l.foldl f init) := by
  induction l generalizing init with
  | nil => exact hinit
  | cons hd tl ih =>
    exact ih _ (fun acc x hx => hstep acc x (List.mem_cons_of_mem _ hx))
      (hstep init hd (List.mem_cons_self _ _) hinit)

/-! Lemmas about the merge step of `GetConjugations`. -/

/-- A scraped person entry that is non-empty and not the placeholder is never
overwritten by the per-tense merge loop. -/
theorem mergeTense_keeps_good (html rule : PMap) (p v : GoStr)
    (hv : lookupA html p = some v) (h1 : v ≠ []) (h2 : v ≠ "-".data) :
    lookupA (mergeTense html rule) p = some v := by
  unfold mergeTense
  refine foldl_inv (fun acc => lookupA acc p = some v) _ rule html ?_ hv
  intro acc pr _ hacc
  unfold mergeStepP
  by_cases hp : pr.1 = p
  · subst hp
    rw [hacc]
    simp only
    rw [if_neg]
    · exact hacc
    · rintro (h | h)
      · exact h1 h
      · exact h2 h
  · cases hl : lookupA acc pr.1 with
    | none => simpa [hl, lookupA_insertA_ne _ _ _ _ (fun hh => hp hh.symm)] using hacc
    | some w =>
      simp only [hl]
      by_cases hw : w = [] ∨ w = "-".data
      · rw [if_pos hw, lookupA_insertA_ne _ _ _ _ (fun hh => hp hh.symm)]
        exact hacc
      · rw [if_neg hw]
        exact hacc

/-- The per-tense merge loop never removes a person that was present. -/
theorem mergeTense_isSome (html rule : PMap) (p : GoStr)
    (hv : (lookupA html p).isSome = true) :
    (lookupA (mergeTense html rule) p).isSome = true := by
  unfold mergeTense
  refine foldl_inv (fun acc => (lookupA acc p).isSome = true) _ rule html ?_ hv
  intro acc pr _ hacc
  unfold mergeStepP
  by_cases hp : pr.1 = p
  · subst hp
    cases hl : lookupA acc pr.1 with
    | none => simp [hl] at hacc
    | some w =>
      simp only [hl]
      by_cases hw : w = [] ∨ w = "-".data
      · rw [if_pos hw, lookupA_insertA_self]
        rfl
      · rw [if_neg hw]
        exact hacc
  · cases hl : lookupA acc pr.1 with
    | none =>
      simp only [hl]
      rw [lookupA_insertA_ne _ _ _ _ (fun hh => hp hh.symm)]
      exact hacc
    | some w =>
      simp only [hl]
      by_cases hw : w = [] ∨ w = "-".data
      · rw [if_pos hw, lookupA_insertA_ne _ _ _ _ (fun hh => hp hh.symm)]
        exact hacc
      · rw [if_neg hw]
        exact hacc

/-- The merge of `GetConjugations` never empties a non-empty scraped table. -/
theorem mergeConj_ne_nil (e g : TMap) (he : e ≠ []) : mergeConj e g ≠ [] := by
  unfold mergeConj
  refine foldl_inv (fun acc => acc ≠ []) _ g e ?_ he
  intro acc tr _ _
  unfold mergeStepT
  cases hl : lookupA acc tr.1 with
  | none => simp only [hl]; exact insertA_ne_nil _ _ _
  | some h => simp only [hl]; exact insertA_ne_nil _ _ _

/-- Each character of a string occupies at least one UTF-8 byte. -/
theorem length_le_goLen (s : GoStr) : s.length ≤ goLen s := by
  induction s with
  | nil => simp [goLen]
  | cons c rest ih =>
    have hc : 1 ≤ c.utf8Size := Char.utf8Size_pos c
    simp only [goLen, List.map_cons, List.sum_cons, List.length_cons]
    have := ih
    simp only [goLen] at this
    omega

/-- The table built by `generateRuleBasedConjugations` is empty exactly when the
verb lacks a conjugable ending. -/
theorem genRuleBased_eq_nil_iff (v : GoStr) :
    generateRuleBasedConjugations v = [] ↔
      ¬(goHasSuffix v "ar".data = true ∨ goHasSuffix v "er".data = true ∨
        goHasSuffix v "ir".data = true) := by
  unfold generateRuleBasedConjugations
  by_cases h : goHasSuffix v "ar".data = true ∨ goHasSuffix v "er".data = true ∨
      goHasSuffix v "ir".data = true
  · rw [if_neg (not_not_intro h)]
    simp [h]
  · rw [if_pos h]
    simp [h]

/-- C1: fetch/parse failures and empty extractions are fully absorbed by
`GetConjugations`: on a cache miss it never returns an error, it returns the
rule-based table verbatim whenever the scrape produced no usable data, and an
empty result can only arise from an unusable scrape together with a
non-conjugable word. -/
theorem getConjugations_absorbs_failures (cache : Cache) (scrape : Except Unit TMap)
    (verb : GoStr) (hc : lookupA cache (normVerb verb) = none) :
    GetConjugations cache scrape verb ≠ Except.error () ∧
    ((scrape = Except.error () ∨ scrape = Except.ok ([] : TMap)) →
      GetConjugations cache scrape verb =
        Except.ok (generateRuleBasedConjugations (normVerb verb))) ∧
    (GetConjugations cache scrape verb = Except.ok ([] : TMap) →
      (scrape = Except.error () ∨ scrape = Except.ok ([] : TMap)) ∧
      ¬(goHasSuffix (normVerb verb) "ar".data = true ∨
        goHasSuffix (normVerb verb) "er".data = true ∨
        goHasSuffix (normVerb verb) "ir".data = true)) := by
  have hred : GetConjugations cache scrape verb =
      Except.ok (match scrape with
        | Except.error _ => generateRuleBasedConjugations (normVerb verb)
        | Except.ok c =>
            if c = [] then generateRuleBasedConjugations (normVerb verb)
            else mergeConj c (generateRuleBasedConjugations (normVerb verb))) := by
    unfold GetConjugations
    simp only [hc]
  cases scrape with
  | error u =>
    refine ⟨by rw [hred]; simp, fun _ => by rw [hred], fun h => ⟨Or.inl rfl, ?_⟩⟩
    rw [hred] at h
    have h' : generateRuleBasedConjugations (normVerb verb) = [] := by
      simpa using h
    exact (genRuleBased_eq_nil_iff (normVerb verb)).1 h'
  | ok c =>
    by_cases hcnil : c = []
    · subst hcnil
      refine ⟨by rw [hred]; simp, fun _ => by rw [hred]; rfl, fun h => ⟨Or.inr rfl, ?_⟩⟩
      rw [hred] at h
      have h' : generateRuleBasedConjugations (normVerb verb) = [] := by
        simpa using h
      exact (genRuleBased_eq_nil_iff (normVerb verb)).1 h'
    · refine ⟨by rw [hred]; simp, fun hcontra => ?_, fun h => ?_⟩
      · rcases hcontra with h' | h'
        · exact absurd h' (by simp)
        · exact absurd (by injection h') hcnil
      · rw [hred] at h
        have h' : mergeConj c (generateRuleBasedConjugations (normVerb verb)) = [] := by
          simpa [hcnil] using h
        exact absurd h' (mergeConj_ne_nil _ _ hcnil)

/-- Witness for C1 at a concrete non-conjugable word with a failed scrape. -/
theorem getConjugations_absorbs_failures_witness :
    GetConjugations [] (Except.error ()) "mesa".data ≠ Except.error () ∧
    ((Except.error () = (Except.error () : Except Unit TMap) ∨
        (Except.error () : Except Unit TMap) = Except.ok ([] : TMap)) →
      GetConjugations [] (Except.error ()) "mesa".data =
        Except.ok (generateRuleBasedConjugations (normVerb "mesa".data))) ∧
    (GetConjugations [] (Except.error ()) "mesa".data = Except.ok ([] : TMap) →
      ((Except.error () : Except Unit TMap) = Except.error () ∨
        (Except.error () : Except Unit TMap) = Except.ok ([] : TMap)) ∧
      ¬(goHasSuffix (normVerb "mesa".data) "ar".data = true ∨
        goHasSuffix (normVerb "mesa".data) "er".data = true ∨
        goHasSuffix (normVerb "mesa".data) "ir".data = true)) :=
  getConjugations_absorbs_failures [] (Except.error ()) "mesa".data rfl

/-- C3: a (tense, person) cell present in the extracted table with a non-empty,
non-placeholder value survives the merge with the identical value, and the merge
never removes a cell that extraction found. -/
theorem merge_preserves_extracted_cell (e g : TMap) (t p v : GoStr)
    (hv : lookup2 e t p = some v) :
    (v ≠ [] → v ≠ "-".data → lookup2 (mergeConj e g) t p = some v) ∧
    (lookup2 (mergeConj e g) t p).isSome = true := by
  have hsplit : ∃ pm, lookupA e t = some pm ∧ lookupA pm p = some v := by
    unfold lookup2 at hv
    cases he : lookupA e t with
    | none => rw [he] at hv; exact absurd hv (by simp)
    | some pm => exact ⟨pm, rfl, by rw [he] at hv; exact hv⟩
  obtain ⟨pm, he, hp⟩ := hsplit
  constructor
  · intro h1 h2
    have key : ∃ pm', lookupA (mergeConj e g) t = some pm' ∧ lookupA pm' p = some v := by
      unfold mergeConj
      refine foldl_inv (fun acc => ∃ pm', lookupA acc t = some pm' ∧ lookupA pm' p = some v)
        _ g e ?_ ⟨pm, he, hp⟩
      intro acc tr _ hacc
      obtain ⟨pm', ha, hb⟩ := hacc
      unfold mergeStepT
      by_cases ht : tr.1 = t
      · subst ht
        rw [ha]
        exact ⟨mergeTense pm' tr.2, lookupA_insertA_self _ _ _,
          mergeTense_keeps_good pm' tr.2 p v hb h1 h2⟩
      · cases hl : lookupA acc tr.1 with
        | none =>
          simp only [hl]
          exact ⟨pm', by rw [lookupA_insertA_ne _ _ _ _ (Ne.symm ht)]; exact ha, hb⟩
        | some h' =>
          simp only [hl]
          exact ⟨pm', by rw [lookupA_insertA_ne _ _ _ _ (Ne.symm ht)]; exact ha, hb⟩
    obtain ⟨pm', ha, hb⟩ := key
    unfold lookup2
    rw [ha]
    exact hb
  · have key : ∃ pm', lookupA (mergeConj e g) t = some pm' ∧
        (lookupA pm' p).isSome = true := by
      unfold mergeConj
      refine foldl_inv
        (fun acc => ∃ pm', lookupA acc t = some pm' ∧ (lookupA pm' p).isSome = true)
        _ g e ?_ ⟨pm, he, by rw [hp]; rfl⟩
      intro acc tr _ hacc
      obtain ⟨pm', ha, hb⟩ := hacc
      unfold mergeStepT
      by_cases ht : tr.1 = t
      · subst ht
        rw [ha]
        exact ⟨mergeTense pm' tr.2, lookupA_insertA_self _ _ _,
          mergeTense_isSome pm' tr.2 p hb⟩
      · cases hl : lookupA acc tr.1 with
        | none =>
          simp only [hl]
          exact ⟨pm', by rw [lookupA_insertA_ne _ _ _ _ (Ne.symm ht)]; exact ha, hb⟩
        | some h' =>
          simp only [hl]
          exact ⟨pm', by rw [lookupA_insertA_ne _ _ _ _ (Ne.symm ht)]; exact ha, hb⟩
    obtain ⟨pm', ha, hb⟩ := key
    unfold lookup2
    rw [ha]
    exact hb

/-- Witness for C3 at a concrete pair of tables whose cells disagree. -/
theorem merge_preserves_extracted_cell_witness :
    ("camino".data ≠ [] → "camino".data ≠ "-".data →
      lookup2 (mergeConj [("present".data, [(pYo, "camino".data)])]
        [("present".data, [(pYo, "ando".data)])]) "present".data pYo =
        some "camino".data) ∧
    (lookup2 (mergeConj [("present".data, [(pYo, "camino".data)])]
        [("present".data, [(pYo, "ando".data)])]) "present".data pYo).isSome = true :=
  merge_preserves_extracted_cell _ _ _ _ _ (by decide)

/-- C7: the validator rejects URL-like, tag-like, empty and over-long
candidates for every verb, and accepts `caminamos` and `fui` for every verb. -/
theorem validator_concrete_cases (verb text : GoStr) (h25 : text.length = 25) :
    isValidConjugation "http://x".data verb = false ∧
    isValidConjugation "#tag".data verb = false ∧
    isValidConjugation [] verb = false ∧
    isValidConjugation text verb = false ∧
    isValidConjugation "caminamos".data verb = true ∧
    isValidConjugation "fui".data verb = true := by
  refine ⟨?_, ?_, ?_, ?_, ?_, ?_⟩
  · unfold isValidConjugation
    rw [if_neg (by decide), if_pos (by decide)]
  · unfold isValidConjugation
    rw [if_neg (by decide), if_pos (by decide)]
  · unfold isValidConjugation
    rw [if_pos (by decide)]
  · unfold isValidConjugation
    have hb : 20 < goLen text := by
      have := length_le_goLen text
      omega
    rw [if_pos (Or.inr (Or.inr hb))]
  · unfold isValidConjugation
    rw [if_neg (by decide), if_neg (by decide), if_neg (by decide),
      if_pos (Or.inr (by decide))]
  · unfold isValidConjugation
    rw [if_neg (by decide), if_neg (by decide), if_neg (by decide),
      if_pos (Or.inr (by decide))]

/-- Witness for C7 at a concrete verb and a concrete 25-character candidate. -/
theorem validator_concrete_cases_witness :
    isValidConjugation "http://x".data "caminar".data = false ∧
    isValidConjugation "#tag".data "caminar".data = false ∧
    isValidConjugation [] "caminar".data = false ∧
    isValidConjugation "aaaaaaaaaaaaaaaaaaaaaaaaa".data "caminar".data = false ∧
    isValidConjugation "caminamos".data "caminar".data = true ∧
    isValidConjugation "fui".data "caminar".data = true :=
  validator_concrete_cases "caminar".data "aaaaaaaaaaaaaaaaaaaaaaaaa".data (by decide)

/-- C9: the validator's length ceiling counts UTF-8 bytes, so any candidate
whose byte length exceeds 20 is rejected, even when its character count is
within the ceiling. -/
theorem validator_length_counts_bytes (verb text : GoStr) (_hchars : text.length ≤ 20)
    (hbytes : 20 < goLen text) : isValidConjugation text verb = false := by
  unfold isValidConjugation
  rw [if_pos (Or.inr (Or.inr hbytes))]

/-- Witness for C9: eleven copies of `á` are 11 characters but 22 UTF-8 bytes
and are rejected. -/
theorem validator_length_counts_bytes_witness :
    ("ááááááááááá".data).length = 11 ∧
    goLen "ááááááááááá".data = 22 ∧
    isValidConjugation "ááááááááááá".data "caminar".data = false :=
  ⟨by decide, by decide,
    validator_length_counts_bytes "caminar".data "ááááááááááá".data (by decide) (by decide)⟩

/-- Counterexample for C2: the two-letter verb `ar` ends in `ar`, yet the
generator's present tense for it holds zero person entries, not six. -/
theorem ar_present_empty_counterexample :
    goHasSuffix "ar".data "ar".data = true ∧
    lookupA (generateRuleBasedConjugations "ar".data) "present".data = some ([] : PMap) ∧
    (lookupA (generateRuleBasedConjugations "ar".data) "present".data).map List.length =
      some 0 := by
  refine ⟨by decide, by decide, by decide⟩

/-- C2 (amended): for every verb of byte length at least 3 ending in `ar` — that
is, every such verb except the bare ending `ar` itself — the generated present
tense is exactly the six suffixes o, as, a, amos, áis, an appended to the stem,
the verb with its final two characters removed. -/
theorem ar_verbs_present_six_forms (verb : GoStr)
    (har : goHasSuffix verb "ar".data = true) (hlen : 3 ≤ goLen verb) :
    getVerbStem verb = verb.dropLast.dropLast ∧
    lookupA (generateRuleBasedConjugations verb) "present".data =
      some (mkSix verb.dropLast.dropLast
        "o".data "as".data "a".data "amos".data "áis".data "an".data) ∧
    (mkSix verb.dropLast.dropLast
      "o".data "as".data "a".data "amos".data "áis".data "an".data).length = 6 := by
  obtain ⟨pre, hpre⟩ : ∃ pre, pre ++ "ar".data = verb := by
    have := (List.isSuffixOf_iff_suffix.1 (by unfold goHasSuffix at har; exact har))
    exact this
  have hstem : getVerbStem verb = verb.dropLast.dropLast := by
    unfold getVerbStem
    rw [if_neg (by omega)]
  have hdl : verb.dropLast.dropLast = pre := by
    rw [← hpre]
    have h1 : pre ++ "ar".data = (pre ++ ['a']) ++ ['r'] := by simp
    rw [h1, List.dropLast_concat, List.dropLast_concat]
  have hend : verb.drop (getVerbStem verb).length = "ar".data := by
    rw [hstem, hdl, ← hpre]
    have : pre.length = (pre ++ "ar".data).length - 2 := by simp
    rw [← hpre] at hstem
    exact List.drop_left pre "ar".data
  refine ⟨hstem, ?_, rfl⟩
  unfold generateRuleBasedConjugations
  rw [if_neg (not_not_intro (Or.inl har))]
  simp only
  rw [hend]
  rw [if_pos rfl]
  simp [lookupA, hstem]

/-- Witness for C2 (amended) at the verb `caminar`. -/
theorem ar_verbs_present_six_forms_witness :
    (getVerbStem "caminar".data = "caminar".data.dropLast.dropLast ∧
      lookupA (generateRuleBasedConjugations "caminar".data) "present".data =
        some (mkSix "caminar".data.dropLast.dropLast
          "o".data "as".data "a".data "amos".data "áis".data "an".data) ∧
      (mkSix "caminar".data.dropLast.dropLast
        "o".data "as".data "a".data "amos".data "áis".data "an".data).length = 6) ∧
    lookup2 (generateRuleBasedConjugations "caminar".data) "present".data pYo =
      some "camino".data :=
  ⟨ar_verbs_present_six_forms "caminar".data (by decide) (by decide), by decide⟩

/-- C5: the future and conditional tenses are always built by appending the
ending-independent suffix sets to the whole verb, never to the stem. -/
theorem future_conditional_whole_verb (verb : GoStr)
    (hv : goHasSuffix verb "ar".data = true ∨ goHasSuffix verb "er".data = true ∨
      goHasSuffix verb "ir".data = true) :
    lookupA (generateRuleBasedConjugations verb) "future".data =
      some (mkSix verb "é".data "ás".data "á".data "emos".data "éis".data "án".data) ∧
    lookupA (generateRuleBasedConjugations verb) "conditional".data =
      some (mkSix verb "ía".data "ías".data "ía".data "íamos".data "íais".data "ían".data) := by
  unfold generateRuleBasedConjugations
  rw [if_neg (not_not_intro hv)]
  constructor
  · simp [lookupA]
  · simp [lookupA]

/-- Witness for C5 at the verb `caminar`: future yo-form `caminaré`,
conditional yo-form `caminaría`. -/
theorem future_conditional_whole_verb_witness :
    (lookupA (generateRuleBasedConjugations "caminar".data) "future".data =
      some (mkSix "caminar".data
        "é".data "ás".data "á".data "emos".data "éis".data "án".data) ∧
    lookupA (generateRuleBasedConjugations "caminar".data) "conditional".data =
      some (mkSix "caminar".data
        "ía".data "ías".data "ía".data "íamos".data "íais".data "ían".data)) ∧
    lookup2 (generateRuleBasedConjugations "caminar".data) "future".data pYo =
      some "caminaré".data ∧
    lookup2 (generateRuleBasedConjugations "caminar".data) "conditional".data pYo =
      some "caminaría".data :=
  ⟨future_conditional_whole_verb "caminar".data (by decide), by decide, by decide⟩

/-- C10: for the bare endings `ar`, `er`, `ir` the stem helper returns the verb
unchanged, the generated present and preterite tenses are present with zero
person entries, and the future and conditional tenses hold six forms each built
on the whole verb. -/
theorem bare_ending_tables :
    getVerbStem "ar".data = "ar".data ∧
    getVerbStem "er".data = "er".data ∧
    getVerbStem "ir".data = "ir".data ∧
    generateRuleBasedConjugations "ar".data =
      [("present".data, []), ("preterite".data, []),
       ("future".data,
        [(pYo, "aré".data), (pTu, "arás".data), (pEl, "ará".data),
         (pNos, "aremos".data), (pVos, "aréis".data), (pEllos, "arán".data)]),
       ("conditional".data,
        [(pYo, "aría".data), (pTu, "arías".data), (pEl, "aría".data),
         (pNos, "aríamos".data), (pVos, "aríais".data), (pEllos, "arían".data)])] ∧
    generateRuleBasedConjugations "er".data =
      [("present".data, []), ("preterite".data, []),
       ("future".data,
        [(pYo, "eré".data), (pTu, "erás".data), (pEl, "erá".data),
         (pNos, "eremos".data), (pVos, "eréis".data), (pEllos, "erán".data)]),
       ("conditional".data,
        [(pYo, "ería".data), (pTu, "erías".data), (pEl, "ería".data),
         (pNos, "eríamos".data), (pVos, "eríais".data), (pEllos, "erían".data)])] ∧
    generateRuleBasedConjugations "ir".data =
      [("present".data, []), ("preterite".data, []),
       ("future".data,
        [(pYo, "iré".data), (pTu, "irás".data), (pEl, "irá".data),
         (pNos, "iremos".data), (pVos, "iréis".data), (pEllos, "irán".data)]),
       ("conditional".data,
        [(pYo, "iría".data), (pTu, "irías".data), (pEl, "iría".data),
         (pNos, "iríamos".data), (pVos, "iríais".data), (pEllos, "irían".data)])] := by
  refine ⟨by decide, by decide, by decide, by decide, by decide, by decide⟩

/-! Pointwise characterization of the merge step, used for idempotence. -/

theorem lookupA_eq_none_of_not_mem {β : Type} (m : List (GoStr × β)) (k : GoStr)
    (h : k ∉ m.map Prod.fst) : lookupA m k = none := by
  induction m with
  | nil => rfl
  | cons hd tl ih =>
    obtain ⟨k', v'⟩ := hd
    simp only [List.map_cons, List.mem_cons] at h
    push_neg at h
    simp only [lookupA, ih h.2]
    rw [if_neg fun hh => h.1 hh.symm]

/-- Pointwise description of the per-tense merge loop, for rule tenses without
duplicated person keys (as Go maps guarantee). -/
theorem mergeTense_lookup (r : PMap) (h : PMap) (p : GoStr)
    (hr : (r.map Prod.fst).Nodup) :
    lookupA (mergeTense h r) p = mergeCell (lookupA h p) (lookupA r p) := by
  induction r generalizing h with
  | nil => rfl
  | cons hd r' ih =>
    obtain ⟨p', rc'⟩ := hd
    simp only [List.map_cons, List.nodup_cons] at hr
    obtain ⟨hnotin, hnd⟩ := hr
    have hstep : mergeTense h ((p', rc') :: r') = mergeTense (mergeStepP h (p', rc')) r' :=
      rfl
    rw [hstep, ih _ hnd]
    by_cases hp : p' = p
    · subst hp
      rw [lookupA_eq_none_of_not_mem r' p' hnotin]
      have hhead : lookupA ((p', rc') :: r') p' = some rc' := by
        simp [lookupA]
      rw [hhead]
      unfold mergeStepP
      cases hl : lookupA h p' with
      | none =>
        simp only [hl, mergeCell, lookupA_insertA_self]
      | some w =>
        simp only [hl]
        by_cases hw : w = [] ∨ w = "-".data
        · rw [if_pos hw]
          simp only [mergeCell, if_pos hw, lookupA_insertA_self]
        · rw [if_neg hw]
          simp only [mergeCell, if_neg hw, hl]
    · have hhead : lookupA ((p', rc') :: r') p = lookupA r' p := by
        simp [lookupA, hp]
      have hstep2 : lookupA (mergeStepP h (p', rc')) p = lookupA h p := by
        unfold mergeStepP
        cases hl : lookupA h p' with
        | none => simp only; rw [lookupA_insertA_ne _ _ _ _ (Ne.symm hp)]
        | some w =>
          simp only
          by_cases hw : w = [] ∨ w = "-".data
          · rw [if_pos hw, lookupA_insertA_ne _ _ _ _ (Ne.symm hp)]
          · rw [if_neg hw]
      rw [hhead, hstep2]

/-- Pointwise description of the tense-level merge loop, for rule tables
without duplicated tense keys. -/
theorem mergeConj_lookup (g : TMap) (e : TMap) (t : GoStr)
    (hg : (g.map Prod.fst).Nodup) :
    lookupA (mergeConj e g) t = mergeTop (lookupA e t) (lookupA g t) := by
  induction g generalizing e with
  | nil => rfl
  | cons hd g' ih =>
    obtain ⟨t', gt'⟩ := hd
    simp only [List.map_cons, List.nodup_cons] at hg
    obtain ⟨hnotin, hnd⟩ := hg
    have hstep : mergeConj e ((t', gt') :: g') = mergeConj (mergeStepT e (t', gt')) g' :=
      rfl
    rw [hstep, ih _ hnd]
    by_cases ht : t' = t
    · subst ht
      rw [lookupA_eq_none_of_not_mem g' t' hnotin]
      have hhead : lookupA ((t', gt') :: g') t' = some gt' := by
        simp [lookupA]
      rw [hhead]
      unfold mergeStepT
      cases hl : lookupA e t' with
      | none =>
        simp only [hl, mergeTop, lookupA_insertA_self]
      | some et =>
        simp only [hl, mergeTop, lookupA_insertA_self]
    · have hhead : lookupA ((t', gt') :: g') t = lookupA g' t := by
        simp [lookupA, ht]
      have hstep2 : lookupA (mergeStepT e (t', gt')) t = lookupA e t := by
        unfold mergeStepT
        cases hl : lookupA e t' with
        | none => simp only; rw [lookupA_insertA_ne _ _ _ _ (Ne.symm ht)]
        | some et => simp only; rw [lookupA_insertA_ne _ _ _ _ (Ne.symm ht)]
      rw [hhead, hstep2]

/-- One merged cell is unchanged when merged with the same rule cell again. -/
theorem mergeCell_idem (a b : Option GoStr) :
    mergeCell (mergeCell a b) b = mergeCell a b := by
  cases b with
  | none => rfl
  | some rc =>
    cases a with
    | none =>
      show mergeCell (some rc) (some rc) = some rc
      show (if rc = [] ∨ rc = "-".data then some rc else some rc) = some rc
      split <;> rfl
    | some v =>
      show mergeCell (if v = [] ∨ v = "-".data then some rc else some v) (some rc) =
        if v = [] ∨ v = "-".data then some rc else some v
      by_cases hv : v = [] ∨ v = "-".data
      · rw [if_pos hv]
        show (if rc = [] ∨ rc = "-".data then some rc else some rc) = some rc
        split <;> rfl
      · rw [if_neg hv]
        show (if v = [] ∨ v = "-".data then some rc else some v) = some v
        rw [if_neg hv]

/-- C6: applying the merge step a second time with the same generated table
changes nothing — every cell of the twice-merged table equals the corresponding
cell of the once-merged table. -/
theorem merge_idempotent (e g : TMap) (t p : GoStr) (hg : WFTMap g) :
    lookup2 (mergeConj (mergeConj e g) g) t p = lookup2 (mergeConj e g) t p := by
  obtain ⟨hg1, hg2⟩ := hg
  unfold lookup2
  rw [mergeConj_lookup g (mergeConj e g) t hg1, mergeConj_lookup g e t hg1]
  cases hgt : lookupA g t with
  | none => rfl
  | some gt =>
    have hgtnd : (gt.map Prod.fst).Nodup := hg2 (t, gt) (lookupA_mem hgt)
    cases het : lookupA e t with
    | none =>
      simp only [mergeTop]
      rw [mergeTense_lookup gt gt p hgtnd]
      cases hp : lookupA gt p with
      | none => rfl
      | some rc =>
        simp only [mergeCell]
        by_cases hrc : rc = [] ∨ rc = "-".data
        · rw [if_pos hrc]
        · rw [if_neg hrc]
    | some et =>
      simp only [mergeTop]
      rw [mergeTense_lookup gt (mergeTense et gt) p hgtnd,
        mergeTense_lookup gt et p hgtnd]
      exact mergeCell_idem _ _

/-- Witness for C6 at concrete extracted and generated tables. -/
theorem merge_idempotent_witness :
    lookup2 (mergeConj (mergeConj
        [("present".data, [(pYo, "-".data)])]
        [("present".data, [(pYo, "camino".data), (pTu, "caminas".data)])])
        [("present".data, [(pYo, "camino".data), (pTu, "caminas".data)])])
      "present".data pYo =
    lookup2 (mergeConj
        [("present".data, [(pYo, "-".data)])]
        [("present".data, [(pYo, "camino".data), (pTu, "caminas".data)])])
      "present".data pYo :=
  merge_idempotent
    [("present".data, [(pYo, "-".data)])]
    [("present".data, [(pYo, "camino".data), (pTu, "caminas".data)])]
    "present".data pYo (by decide)

theorem TableGood_nil : TableGood [] := by
  intro pr hpr
  simp at hpr

theorem insertA_mem_src {β : Type} (k : GoStr) (v : β) (m : List (GoStr × β)) :
    ∀ x ∈ insertA k v m, x = (k, v) ∨ x ∈ m := by
  induction m with
  | nil => intro x hx; simp [insertA] at hx; exact Or.inl hx
  | cons hd tl ih =>
    obtain ⟨k', v'⟩ := hd
    intro x hx
    unfold insertA at hx
    by_cases hk : k' = k
    · rw [if_pos hk] at hx
      rcases List.mem_cons.1 hx with h | h
      · exact Or.inl h
      · exact Or.inr (List.mem_cons_of_mem _ h)
    · rw [if_neg hk] at hx
      rcases List.mem_cons.1 hx with h | h
      · exact Or.inr (by simp [h])
      · rcases ih x h with h' | h'
        · exact Or.inl h'
        · exact Or.inr (List.mem_cons_of_mem _ h')

theorem lookupA_good {m : TMap} (hm : TableGood m) {t : GoStr} {pm : PMap}
    (h : lookupA m t = some pm) : PMapGood pm :=
  hm (t, pm) (lookupA_mem h)

/-- Values looked up in a `TableGood` table are non-empty and non-placeholder. -/
theorem TableGood_lookup {m : TMap} (hm : TableGood m) {t p v : GoStr}
    (h : lookup2 m t p = some v) : v ≠ [] ∧ v ≠ "-".data := by
  unfold lookup2 at h
  cases hl : lookupA m t with
  | none => rw [hl] at h; exact absurd h (by simp)
  | some pm =>
    rw [hl] at h
    exact lookupA_good hm hl (p, v) (lookupA_mem h)

theorem setCell_good {m : TMap} (hm : TableGood m) {t p v : GoStr}
    (h1 : v ≠ []) (h2 : v ≠ "-".data) : TableGood (setCell t p v m) := by
  unfold setCell
  cases hl : lookupA m t with
  | none =>
    intro pr hpr
    rcases insertA_mem_src _ _ _ pr hpr with h | h
    · subst h
      intro qr hqr
      simp at hqr
      subst hqr
      exact ⟨h1, h2⟩
    · exact hm pr h
  | some pm =>
    intro pr hpr
    rcases insertA_mem_src _ _ _ pr hpr with h | h
    · subst h
      intro qr hqr
      rcases insertA_mem_src _ _ _ qr hqr with h' | h'
      · subst h'
        exact ⟨h1, h2⟩
      · exact lookupA_good hm hl qr h'
    · exact hm pr h

theorem mergeTense_good {h r : PMap} (hh : PMapGood h) (hr : PMapGood r) :
    PMapGood (mergeTense h r) := by
  unfold mergeTense
  refine foldl_inv PMapGood _ r h ?_ hh
  intro acc pr hpr hacc
  unfold mergeStepP
  cases hl : lookupA acc pr.1 with
  | none =>
    intro qr hqr
    rcases insertA_mem_src _ _ _ qr hqr with h' | h'
    · subst h'
      exact hr pr hpr
    · exact hacc qr h'
  | some w =>
    show PMapGood (if w = [] ∨ w = "-".data then insertA pr.1 pr.2 acc else acc)
    by_cases hw : w = [] ∨ w = "-".data
    · rw [if_pos hw]
      intro qr hqr
      rcases insertA_mem_src _ _ _ qr hqr with h' | h'
      · subst h'
        exact hr pr hpr
      · exact hacc qr h'
    · rw [if_neg hw]
      exact hacc

theorem mergeConj_good {e g : TMap} (he : TableGood e) (hg : TableGood g) :
    TableGood (mergeConj e g) := by
  unfold mergeConj
  refine foldl_inv TableGood _ g e ?_ he
  intro acc tr htr hacc
  unfold mergeStepT
  cases hl : lookupA acc tr.1 with
  | none =>
    intro pr hpr
    rcases insertA_mem_src _ _ _ pr hpr with h' | h'
    · subst h'
      exact hg tr htr
    · exact hacc pr h'
  | some h =>
    intro pr hpr
    rcases insertA_mem_src _ _ _ pr hpr with h' | h'
    · subst h'
      exact mergeTense_good (lookupA_good hacc hl) (hg tr htr)
    · exact hacc pr h'

theorem list_append_good (base s : GoStr) (h1 : s ≠ []) (h2 : s ≠ "-".data) :
    base ++ s ≠ [] ∧ base ++ s ≠ "-".data := by
  constructor
  · simp [h1]
  · intro hcontra
    have hlen : base.length + s.length = 1 := by
      simpa using congrArg List.length hcontra
    have hs1 : s.length = 1 := by
      have := List.length_pos.2 h1
      omega
    have hb : base = [] := by
      have hb0 : base.length = 0 := by omega
      exact List.length_eq_zero.1 hb0
    subst hb
    simp at hcontra
    exact h2 hcontra

theorem mkSix_good (base s1 s2 s3 s4 s5 s6 : GoStr)
    (hs : ∀ s ∈ [s1, s2, s3, s4, s5, s6], s ≠ [] ∧ s ≠ "-".data) :
    PMapGood (mkSix base s1 s2 s3 s4 s5 s6) := by
  intro qr hqr
  unfold mkSix at hqr
  simp only [List.mem_cons, List.not_mem_nil, or_false] at hqr
  rcases hqr with h | h | h | h | h | h <;> subst h
  · exact list_append_good base s1 (hs s1 (by simp)).1 (hs s1 (by simp)).2
  · exact list_append_good base s2 (hs s2 (by simp)).1 (hs s2 (by simp)).2
  · exact list_append_good base s3 (hs s3 (by simp)).1 (hs s3 (by simp)).2
  · exact list_append_good base s4 (hs s4 (by simp)).1 (hs s4 (by simp)).2
  · exact list_append_good base s5 (hs s5 (by simp)).1 (hs s5 (by simp)).2
  · exact list_append_good base s6 (hs s6 (by simp)).1 (hs s6 (by simp)).2

/-- Every table the rule-based generator produces satisfies the invariant. -/
theorem genRuleBased_good (verb : GoStr) :
    TableGood (generateRuleBasedConjugations verb) := by
  unfold generateRuleBasedConjugations
  split
  · exact TableGood_nil
  · intro pr hpr
    simp only [List.mem_cons, List.not_mem_nil, or_false] at hpr
    rcases hpr with h | h | h | h <;> subst h <;> simp only
    · split
      · exact mkSix_good _ _ _ _ _ _ _ (by decide)
      · split
        · exact mkSix_good _ _ _ _ _ _ _ (by decide)
        · split
          · exact mkSix_good _ _ _ _ _ _ _ (by decide)
          · intro qr hqr; simp at hqr
    · split
      · exact mkSix_good _ _ _ _ _ _ _ (by decide)
      · split
        · exact mkSix_good _ _ _ _ _ _ _ (by decide)
        · intro qr hqr; simp at hqr
    · exact mkSix_good _ _ _ _ _ _ _ (by decide)
    · exact mkSix_good _ _ _ _ _ _ _ (by decide)

/-- Every table the SpanishDict extractor produces satisfies the invariant:
every stored cell passed the non-empty, non-placeholder guard. -/
theorem extractSD_good (rows : List GRow) (verb : GoStr) :
    TableGood (extractFromSpanishDictTable rows verb) := by
  unfold extractFromSpanishDictTable
  refine foldl_inv TableGood _ rows.enum [] ?_ TableGood_nil
  intro acc rpair _ hacc
  by_cases hz : rpair.1 = 0
  · rw [if_pos hz]; exact hacc
  · rw [if_neg hz]
    cases hpn : pronounOf (goTrimSpace (rowText rpair.2)) with
    | none => exact hacc
    | some pronoun =>
      simp only
      by_cases hcl : (rowTds rpair.2).length = (tenseNamesOf rows).length
      · rw [if_pos hcl]
        refine foldl_inv TableGood _ (rowTds rpair.2).enum acc ?_ hacc
        intro acc2 cpair _ hacc2
        by_cases hci : cpair.1 < (tenseNamesOf rows).length
        · rw [if_pos hci]
          by_cases hgood : cleanConjugation (goTrimSpace cpair.2) ≠ [] ∧
              cleanConjugation (goTrimSpace cpair.2) ≠ "-".data ∧
              isValidConjugation (cleanConjugation (goTrimSpace cpair.2)) verb = true
          · rw [if_pos hgood]
            exact setCell_good hacc2 hgood.1 hgood.2.1
          · rw [if_neg hgood]
            exact hacc2
        · rw [if_neg hci]
          exact hacc2
      · rw [if_neg hcl]
        exact hacc

/-- Every table the generic fallback extractor produces satisfies the
invariant. -/
theorem extractGeneric_good (tbl : GTable) (verb : GoStr) :
    TableGood (extractConjugationsFromTable tbl verb) := by
  unfold extractConjugationsFromTable
  split
  · exact extractSD_good tbl.rows verb
  · refine foldl_inv TableGood _ tbl.rows.enum [] ?_ TableGood_nil
    intro acc rpair _ hacc
    split
    · exact hacc
    · refine foldl_inv TableGood _ (rowTds rpair.2).enum acc ?_ hacc
      intro acc2 cpair _ hacc2
      by_cases hgood : cleanConjugation (goTrimSpace cpair.2) ≠ [] ∧
          cleanConjugation (goTrimSpace cpair.2) ≠ "-".data ∧
          isValidConjugation (cleanConjugation (goTrimSpace cpair.2)) verb = true
      · rw [if_pos hgood]
        cases ht : tenseOfIdx cpair.1 with
        | none => exact hacc2
        | some tense => exact setCell_good hacc2 hgood.1 hgood.2.1
      · rw [if_neg hgood]
        exact hacc2

/-- Every table `parseSpanishDictHTML` produces satisfies the invariant. -/
theorem parseSD_good (doc : GDoc) (verb : GoStr) :
    TableGood (parseSpanishDictHTML doc verb) := by
  unfold parseSpanishDictHTML
  split
  · cases hf : doc.tables.find? (fun tbl => tbl.hasSDClass) with
    | none => exact TableGood_nil
    | some tbl => simp only [hf]; exact extractSD_good tbl.rows verb
  · refine foldl_inv TableGood _ doc.tables [] ?_ TableGood_nil
    intro acc tbl _ hacc
    split
    · split
      · exact extractGeneric_good tbl verb
      · exact hacc
    · exact hacc

/-- C4: on a cache miss, every (tense, person) entry present in the table
returned by `GetConjugations` — built from extraction, merging and generation —
is a non-empty string that is not the placeholder `-`. -/
theorem getConjugations_entries_valid (cache : Cache) (scrape : Except Unit TMap)
    (doc : GDoc) (verb : GoStr) (res : TMap) (t p v : GoStr)
    (hc : lookupA cache (normVerb verb) = none)
    (hs : scrape = Except.error () ∨
      scrape = Except.ok (parseSpanishDictHTML doc (normVerb verb)))
    (hres : GetConjugations cache scrape verb = Except.ok res)
    (hv : lookup2 res t p = some v) :
    v ≠ [] ∧ v ≠ "-".data := by
  have hgen : TableGood (generateRuleBasedConjugations (normVerb verb)) :=
    genRuleBased_good (normVerb verb)
  rcases hs with h | h
  · subst h
    unfold GetConjugations at hres
    simp only [hc] at hres
    injection hres with h'
    subst h'
    exact TableGood_lookup hgen hv
  · subst h
    unfold GetConjugations at hres
    simp only [hc] at hres
    by_cases hnil : parseSpanishDictHTML doc (normVerb verb) = []
    · rw [if_pos hnil] at hres
      injection hres with h'
      subst h'
      exact TableGood_lookup hgen hv
    · rw [if_neg hnil] at hres
      injection hres with h'
      subst h'
      exact TableGood_lookup
        (mergeConj_good (parseSD_good doc (normVerb verb)) hgen) hv

/-- Witness for C4: empty cache, empty document, verb `caminar`, the present
yo-form of the returned table. -/
theorem getConjugations_entries_valid_witness :
    "camino".data ≠ [] ∧ "camino".data ≠ "-".data :=
  getConjugations_entries_valid [] (Except.ok (parseSpanishDictHTML ⟨[]⟩ (normVerb "caminar".data)))
    ⟨[]⟩ "caminar".data (generateRuleBasedConjugations (normVerb "caminar".data))
    "present".data pYo "camino".data rfl (Or.inr rfl) rfl (by decide)

theorem decodeObjWith_map {β : Type} (f : JVal → Option β) (g : β → JVal)
    (l : List (GoStr × β)) (h : ∀ b, f (g b) = some b) :
    decodeObjWith f (l.map fun pr => (pr.1, g pr.2)) = some l := by
  induction l with
  | nil => rfl
  | cons hd tl ih =>
    obtain ⟨k, b⟩ := hd
    simp only [List.map_cons, decodeObjWith, h b, ih]

theorem decodePM_encodePM (pm : PMap) : decodePM (encodePM pm) = some pm := by
  unfold decodePM encodePM
  exact decodeObjWith_map decodeStr JVal.str pm (fun b => rfl)

theorem decodeTM_encodeTM (tm : TMap) : decodeTM (encodeTM tm) = some tm := by
  unfold decodeTM encodeTM
  exact decodeObjWith_map decodePM encodePM tm decodePM_encodePM

theorem decodeCache_encodeCache (c : Cache) : decodeCache (encodeCache c) = some c := by
  unfold decodeCache encodeCache
  exact decodeObjWith_map decodeTM encodeTM c decodeTM_encodeTM

/-- C8: a cache put of `(v, t)` followed by a get of `v` returns `t`, and
reloading a fresh store from the serialized durable file reproduces the same
verb-to-table mapping. -/
theorem cache_roundtrip (cache : Cache) (v : GoStr) (t : TMap) :
    getCachedConjugations (cacheConjugations cache v t) v = some t ∧
    loadCache (some (saveCache (cacheConjugations cache v t))) =
      cacheConjugations cache v t := by
  constructor
  · exact lookupA_insertA_self _ _ _
  · show (match decodeCache (encodeCache (cacheConjugations cache v t)) with
      | some c => c
      | none => []) = cacheConjugations cache v t
    rw [decodeCache_encodeCache]

end Tr
